import Mathlib

/-!
Verification of the value decoding layer of the 2bit container format
(`src/value_reader.rs`): a shallow embedding of `ValueReader` and its
operations over an in-memory byte stream, together with theorems about
signature/endianness handshake, field decoding, block-list decoding,
string decoding and the exact-size read loop.
-/

set_option maxRecDepth 4000

namespace TwoBit

/-- Modelled from the spec: `Field` (types.rs, not under src/) is the format's
32-bit unsigned integer type; we represent values as `Nat` and apply the
32-bit wrap explicitly where u32 arithmetic occurs. -/
abbrev Field := Nat

/-- 2^32, the modulus of u32 arithmetic. -/
def U32 : Nat := 4294967296

/-- Modelled from the spec: a `Block` (block.rs, not under src/) is a pair
of a start offset and a run length, both `Field`s. -/
structure Block where
  start : Field
  length : Field
deriving Repr, DecidableEq

/-- Modelled from the spec: the error kinds of error.rs (not under src/):
FileFormat (bad signature), UnsupportedVersion (version not 0), TextDecode
(invalid UTF-8 where text was expected) and underlying I/O failure.
`Hang` is a modelling marker standing for the documented risk that the
exact-size read loop spins forever when the source keeps returning
zero-byte reads; the real code does not return it, it diverges. -/
inductive Error where
  | FileFormat : String → Error
  | UnsupportedVersion : String → Error
  | TextDecode : Error
  | IoError : Error
  | Hang : Error
deriving Repr, DecidableEq

def badSigMsg : String := "File does not start with 2bit signature"

def badVerMsg : String := "Versions larger than 0 are not supported"

/-- Modelled from the spec: the forward magic signature of the container
(`SIGNATURE` in lib.rs, not under src/), the constant 0x1A412743. -/
def SIGNATURE : Field := 0x1A412743

/-- Modelled from the spec: the byte-reversed signature (`REV_SIGNATURE` in
lib.rs, not under src/): the bytes of 0x1A412743 reversed, i.e. 0x4327411A. -/
def REV_SIGNATURE : Field := 0x4327411A

/-- The underlying byte source: an in-memory buffer plus a cursor position
(the semantics of `std::io::Cursor`, the in-memory backing source of the
decoder). The position may point past the end of the data. -/
structure Stream where
  data : List Nat
  pos : Nat
deriving Repr, DecidableEq

/-- `std::io::SeekFrom`. -/
inductive SeekFrom where
  | Start : Nat → SeekFrom
  | Current : Int → SeekFrom
  | FromEnd : Int → SeekFrom
deriving Repr, DecidableEq

/-- Seek on the underlying source (semantics of `Seek` for `Cursor`):
absolute, relative and from-end positioning; fails when the resulting
position would be negative; may land past the end of the data. -/
def Stream.seek (s : Stream) (p : SeekFrom) : Except Error (Nat × Stream) :=
  match p with
  | .Start n => .ok (n, { s with pos := n })
  | .Current d =>
      let np : Int := (s.pos : Int) + d
      if np < 0 then .error .IoError
      else .ok (np.toNat, { s with pos := np.toNat })
  | .FromEnd d =>
      let np : Int := (s.data.length : Int) + d
      if np < 0 then .error .IoError
      else .ok (np.toNat, { s with pos := np.toNat })

/-- One `read` call on the underlying source (semantics of `Read` for
`Cursor`): delivers `min requested available` bytes starting at the current
position — possibly fewer than requested, possibly zero at end of data —
and advances the position by the number of bytes delivered. -/
def Stream.read (s : Stream) (k : Nat) : Except Error (List Nat × Stream) :=
  let m := min k (s.data.length - s.pos)
  .ok ((s.data.drop s.pos).take m, { s with pos := s.pos + m })

/-- The accumulation loop of `fill_completely`, generic in the underlying
`read` function: while fewer than `n` bytes have been accumulated, issue a
read for the remainder and append what it delivers. `fuel` bounds the number
of iterations; exhausting it yields `.error none` (the loop would still be
running), while an underlying read error `e` is propagated as
`.error (some e)`. The state is returned alongside the outcome, mirroring
that the caller retains the reader after a failure. -/
def fillLoop {σ : Type} (read : σ → Nat → Except Error (List Nat × σ)) :
    Nat → σ → List Nat → Nat → Except (Option Error) (List Nat) × σ
  | 0, st, acc, n => if acc.length < n then (.error none, st) else (.ok acc, st)
  | fuel + 1, st, acc, n =>
      if acc.length < n then
        match read st (n - acc.length) with
        | .error e => (.error (some e), st)
        | .ok (chunk, st2) => fillLoop read fuel st2 (acc ++ chunk) n
      else (.ok acc, st)

/-- `ValueReader::fill_completely` over the in-memory source: run the
accumulation loop with fuel `n` (enough iterations whenever every read makes
progress) and fold the fuel-exhaustion marker into `Error.Hang`. -/
def fill_completely (s : Stream) (n : Nat) : Except Error (List Nat) × Stream :=
  match fillLoop Stream.read n s [] n with
  | (.ok bytes, s2) => (.ok bytes, s2)
  | (.error none, s2) => (.error .Hang, s2)
  | (.error (some e), s2) => (.error e, s2)

/-- `slice_to_field`: assemble a `Field` from the bytes of a slice, in
stream order when `swap_endian` is false and in reverse order when it is
true, accumulating `result = (result << 8) + byte` in u32 arithmetic. -/
def slice_to_field (slice : List Nat) (swap_endian : Bool) : Field :=
  let step : Nat → Nat → Nat := fun r b => (r * 256 % U32 + b) % U32
  if swap_endian then slice.reverse.foldl step 0 else slice.foldl step 0

/-- The 4-byte big-endian encoding of a value, reversed when `swap` is
true: the byte sequence that `slice_to_field` decodes back to the value. -/
def encodeField (v : Nat) (swap : Bool) : List Nat :=
  let be : List Nat := [v / 2 ^ 24 % 256, v / 2 ^ 16 % 256, v / 2 ^ 8 % 256, v % 256]
  if swap then be.reverse else be

/-- Modelled from the spec: UTF-8 well-formedness as checked by
`String::from_utf8` (Rust standard library, outside this repository):
ASCII bytes stand alone; 2-, 3- and 4-byte sequences start at 0xC2, 0xE0
and 0xF0 respectively with continuation bytes in 0x80–0xBF, excluding
overlong encodings, surrogates and code points above 0x10FFFF. -/
def utf8_cont (c : Nat) : Bool := 0x80 ≤ c && c ≤ 0xBF

def utf8_valid : List Nat → Bool
  | [] => true
  | b :: rest =>
    if b < 0x80 then utf8_valid rest
    else if b < 0xC2 then false
    else if b < 0xE0 then
      match rest with
      | c1 :: rest2 => utf8_cont c1 && utf8_valid rest2
      | [] => false
    else if b < 0xF0 then
      match rest with
      | c1 :: c2 :: rest2 =>
          (if b = 0xE0 then decide (0xA0 ≤ c1 ∧ c1 ≤ 0xBF)
           else if b = 0xED then decide (0x80 ≤ c1 ∧ c1 ≤ 0x9F)
           else utf8_cont c1) && utf8_cont c2 && utf8_valid rest2
      | _ => false
    else if b < 0xF5 then
      match rest with
      | c1 :: c2 :: c3 :: rest2 =>
          (if b = 0xF0 then decide (0x90 ≤ c1 ∧ c1 ≤ 0xBF)
           else if b = 0xF4 then decide (0x80 ≤ c1 ∧ c1 ≤ 0x8F)
           else utf8_cont c1) && utf8_cont c2 && utf8_cont c3 && utf8_valid rest2
      | _ => false
    else false

/-- The decoder state: the owned byte source, the stored container version
and the endianness flag fixed at construction. -/
structure ValueReader where
  stream : Stream
  twobit_version : Field
  swap_endian : Bool
deriving Repr, DecidableEq

/-- Advance the decoder's stream position by `k` bytes (a specification
helper used to phrase the position effect of operations). -/
def ValueReader.advance (r : ValueReader) (k : Nat) : ValueReader :=
  { r with stream := { r.stream with pos := r.stream.pos + k } }

/-- `ValueReader::seek`. -/
def ValueReader.seek (r : ValueReader) (p : SeekFrom) : Except Error Nat × ValueReader :=
  match r.stream.seek p with
  | .ok (v, s) => (.ok v, { r with stream := s })
  | .error e => (.error e, r)

/-- `ValueReader::seek_start`: jump to offset 8, just past signature and
version. -/
def ValueReader.seek_start (r : ValueReader) : Except Error Unit × ValueReader :=
  match r.seek (.Start (2 * 4)) with
  | (.ok _, r2) => (.ok (), r2)
  | (.error e, r2) => (.error e, r2)

/-- `ValueReader::tell`: current position via a relative seek of 0. -/
def ValueReader.tell (r : ValueReader) : Except Error Nat × ValueReader :=
  match r.stream.seek (.Current 0) with
  | .ok (v, s) => (.ok v, { r with stream := s })
  | .error e => (.error e, r)

/-- `ValueReader::stream_len`: record the current position, seek to the
end to learn the length, and seek back only when the original position
differed from the end. -/
def ValueReader.stream_len (r : ValueReader) : Except Error Nat × ValueReader :=
  match r.stream.seek (.Current 0) with
  | .error e => (.error e, r)
  | .ok (old_pos, s1) =>
    match s1.seek (.FromEnd 0) with
    | .error e => (.error e, { r with stream := s1 })
    | .ok (len, s2) =>
      if old_pos ≠ len then
        match s2.seek (.Start old_pos) with
        | .error e => (.error e, { r with stream := s2 })
        | .ok (_, s3) => (.ok len, { r with stream := s3 })
      else (.ok len, { r with stream := s2 })

/-- `ValueReader::byte`: read exactly one byte. -/
def ValueReader.byte (r : ValueReader) : Except Error Nat × ValueReader :=
  match fill_completely r.stream 1 with
  | (.ok bytes, s) => (.ok (bytes.headD 0), { r with stream := s })
  | (.error e, s) => (.error e, { r with stream := s })

/-- `ValueReader::field`: read exactly 4 bytes and assemble them with the
resolved endianness. -/
def ValueReader.field (r : ValueReader) : Except Error Field × ValueReader :=
  match fill_completely r.stream 4 with
  | (.ok bytes, s) => (.ok (slice_to_field bytes r.swap_endian), { r with stream := s })
  | (.error e, s) => (.error e, { r with stream := s })

/-- `ValueReader::string`: read exactly `length` bytes, then validate them
as UTF-8; the returned text is the byte sequence itself (Rust `String` is
its UTF-8 bytes). -/
def ValueReader.string (r : ValueReader) (length : Nat) : Except Error (List Nat) × ValueReader :=
  match fill_completely r.stream length with
  | (.ok buf, s) =>
      if utf8_valid buf then (.ok buf, { r with stream := s })
      else (.error .TextDecode, { r with stream := s })
  | (.error e, s) => (.error e, { r with stream := s })

/-- The first loop of `ValueReader::blocks`: push `n` blocks, each with its
`start` read from the stream and `length` set to 0. -/
def readStartsLoop : Nat → ValueReader → List Block → Except Error (List Block) × ValueReader
  | 0, r, acc => (.ok acc, r)
  | k + 1, r, acc =>
    match r.field with
    | (.ok st, r2) => readStartsLoop k r2 (acc ++ [⟨st, 0⟩])
    | (.error e, r2) => (.error e, r2)

/-- The second loop of `ValueReader::blocks`: assign each block's `length`
from the stream, in the same entry order. -/
def readLengthsLoop : List Block → ValueReader → Except Error (List Block) × ValueReader
  | [], r => (.ok [], r)
  | b :: bs, r =>
    match r.field with
    | (.ok len, r2) =>
      match readLengthsLoop bs r2 with
      | (.ok rest, r3) => (.ok ({ b with length := len } :: rest), r3)
      | (.error e, r3) => (.error e, r3)
    | (.error e, r2) => (.error e, r2)

/-- `ValueReader::blocks`: read the count, then all starts, then all
lengths (two back-to-back arrays on disk). -/
def ValueReader.blocks (r : ValueReader) : Except Error (List Block) × ValueReader :=
  match r.field with
  | (.ok n, r1) =>
    match readStartsLoop n r1 [] with
    | (.ok bs, r2) => readLengthsLoop bs r2
    | (.error e, r2) => (.error e, r2)
  | (.error e, r1) => (.error e, r1)

/-- `ValueReader::skip_blocks`: read the count, then seek forward past both
arrays without decoding them. -/
def ValueReader.skip_blocks (r : ValueReader) : Except Error Unit × ValueReader :=
  match r.field with
  | (.ok n, r1) =>
    match r1.stream.seek (.Current (Int.ofNat (n * 2 * 4))) with
    | .ok (_, s) => (.ok (), { r1 with stream := s })
    | .error e => (.error e, r1)
  | (.error e, r1) => (.error e, r1)

/-- `ValueReader::new`: the construction handshake. Decode the first Field
with no swap and compare it against the forward and reversed signatures to
resolve `swap_endian`, then decode and check the version Field. -/
def ValueReader.new (s : Stream) : Except Error ValueReader :=
  let r0 : ValueReader := ⟨s, 0, false⟩
  match r0.field with
  | (.error e, _) => .error e
  | (.ok signature, r1) =>
    let checked : Except Error ValueReader :=
      if signature = SIGNATURE then .ok r1
      else if signature = REV_SIGNATURE then .ok { r1 with swap_endian := true }
      else .error (.FileFormat badSigMsg)
    match checked with
    | .error e => .error e
    | .ok rr =>
      match rr.field with
      | (.error e, _) => .error e
      | (.ok version, r2) =>
        if version = 0 then .ok { r2 with twobit_version := version }
        else .error (.UnsupportedVersion badVerMsg)

/-- The construction-time-fixed observables of the decoder: the endianness
flag, the stored version and the (immutable) stream contents. -/
def ValueReader.fixedState (r : ValueReader) : Bool × Field × List Nat :=
  (r.swap_endian, r.twobit_version, r.stream.data)

/-! ### Helper lemmas -/

@[simp]
lemma advance_stream_data (r : ValueReader) (k : Nat) :
    (r.advance k).stream.data = r.stream.data := rfl

@[simp]
lemma advance_stream_pos (r : ValueReader) (k : Nat) :
    (r.advance k).stream.pos = r.stream.pos + k := rfl

@[simp]
lemma advance_swap (r : ValueReader) (k : Nat) :
    (r.advance k).swap_endian = r.swap_endian := rfl

@[simp]
lemma advance_version (r : ValueReader) (k : Nat) :
    (r.advance k).twobit_version = r.twobit_version := rfl

lemma advance_advance (r : ValueReader) (k m : Nat) :
    (r.advance k).advance m = r.advance (k + m) := by
  simp [ValueReader.advance, Nat.add_assoc]

lemma fillLoop_done {σ : Type} (read : σ → Nat → Except Error (List Nat × σ))
    (fuel : Nat) (st : σ) (acc : List Nat) (n : Nat) (h : ¬ acc.length < n) :
    fillLoop read fuel st acc n = (.ok acc, st) := by
  cases fuel <;> simp [fillLoop, h]

lemma fill_completely_spec (s : Stream) (n : Nat) (h : s.pos + n ≤ s.data.length) :
    fill_completely s n = (.ok ((s.data.drop s.pos).take n), ⟨s.data, s.pos + n⟩) := by
  have hloop : fillLoop Stream.read n s [] n =
      (.ok ((s.data.drop s.pos).take n), ⟨s.data, s.pos + n⟩) := by
    cases n with
    | zero => simp [fillLoop]
    | succ k =>
        have hm : min (k + 1) (s.data.length - s.pos) = k + 1 := by omega
        have hlen : ((s.data.drop s.pos).take (k + 1)).length = k + 1 := by
          simp [List.length_take, List.length_drop]
          omega
        rw [fillLoop]
        simp only [List.length_nil, Nat.sub_zero, if_pos (Nat.succ_pos k), Stream.read, hm]
        rw [List.nil_append, fillLoop_done _ _ _ _ _ (by rw [hlen]; exact Nat.lt_irrefl _)]
  rw [fill_completely, hloop]

lemma length_encodeField (v : Nat) (swap : Bool) : (encodeField v swap).length = 4 := by
  cases swap <;> simp [encodeField]

lemma decode_bytes_of_lt (v : Nat) (hv : v < 4294967296) :
    (((v / 16777216 % 256 % 4294967296 * 256 + v / 65536 % 256) % 4294967296 * 256
        + v / 256 % 256) % 4294967296 * 256 + v % 256) % 4294967296 = v := by
  have e0 : v / 16777216 % 256 % 4294967296 = v / 16777216 % 256 :=
    Nat.mod_eq_of_lt (by omega)
  rw [e0]
  have e1 : (v / 16777216 % 256 * 256 + v / 65536 % 256) % 4294967296
      = v / 16777216 % 256 * 256 + v / 65536 % 256 := Nat.mod_eq_of_lt (by omega)
  rw [e1]
  have e2 : ((v / 16777216 % 256 * 256 + v / 65536 % 256) * 256 + v / 256 % 256) % 4294967296
      = (v / 16777216 % 256 * 256 + v / 65536 % 256) * 256 + v / 256 % 256 :=
    Nat.mod_eq_of_lt (by omega)
  rw [e2]
  have e3 : (((v / 16777216 % 256 * 256 + v / 65536 % 256) * 256 + v / 256 % 256) * 256
      + v % 256) % 4294967296
      = ((v / 16777216 % 256 * 256 + v / 65536 % 256) * 256 + v / 256 % 256) * 256 + v % 256 :=
    Nat.mod_eq_of_lt (by omega)
  rw [e3]
  omega

lemma encode_decode (v : Nat) (swap : Bool) (hv : v < U32) :
    slice_to_field (encodeField v swap) swap = v := by
  have h32 : U32 = 4294967296 := rfl
  rw [h32] at hv
  cases swap <;> simp [encodeField, slice_to_field, h32] <;>
    exact decode_bytes_of_lt v hv

lemma drop_advance (data : List Nat) (pos k : Nat) (xs rest : List Nat)
    (hk : xs.length = k) (hd : data.drop pos = xs ++ rest) :
    data.drop (pos + k) = rest := by
  rw [← List.drop_drop, hd, ← hk, List.drop_left]

lemma field_bytes (r : ValueReader) (b4 rest : List Nat)
    (h4 : b4.length = 4)
    (hd : r.stream.data.drop r.stream.pos = b4 ++ rest) :
    r.field = (.ok (slice_to_field b4 r.swap_endian), r.advance 4) := by
  have hlen := congrArg List.length hd
  simp [List.length_drop, List.length_append, h4] at hlen
  have hle : r.stream.pos + 4 ≤ r.stream.data.length := by omega
  have htake : (r.stream.data.drop r.stream.pos).take 4 = b4 := by
    rw [hd, ← h4, List.take_left]
  rw [ValueReader.field, fill_completely_spec _ _ hle, htake]
  rfl

lemma field_enc (r : ValueReader) (v : Nat) (rest : List Nat) (hv : v < U32)
    (hd : r.stream.data.drop r.stream.pos = encodeField v r.swap_endian ++ rest) :
    r.field = (.ok v, r.advance 4) := by
  rw [field_bytes r _ rest (length_encodeField v r.swap_endian) hd,
    encode_decode _ _ hv]

@[simp]
lemma advance_zero (r : ValueReader) : r.advance 0 = r := by
  simp [ValueReader.advance]

lemma length_flatten_enc (vals : List Nat) (swap : Bool) :
    ((vals.map (fun v => encodeField v swap)).flatten).length = 4 * vals.length := by
  induction vals with
  | nil => simp
  | cons v tl ih =>
      simp only [List.map_cons, List.flatten_cons, List.length_append, ih,
        length_encodeField, List.length_cons]
      omega

lemma readStartsLoop_enc (vals : List Nat) (r : ValueReader) (acc : List Block)
    (rest : List Nat) (hv : ∀ v ∈ vals, v < U32)
    (hd : r.stream.data.drop r.stream.pos =
      (vals.map (fun v => encodeField v r.swap_endian)).flatten ++ rest) :
    readStartsLoop vals.length r acc =
      (.ok (acc ++ vals.map (fun v => Block.mk v 0)), r.advance (4 * vals.length)) := by
  induction vals generalizing r acc rest with
  | nil => simp [readStartsLoop]
  | cons v tl ih =>
      have hfield : r.field = (.ok v, r.advance 4) := by
        apply field_enc r v ((tl.map (fun w => encodeField w r.swap_endian)).flatten ++ rest)
          (hv v (List.mem_cons_self v tl))
        rw [hd]
        simp [List.append_assoc]
      have hdrop : r.stream.data.drop (r.stream.pos + 4) =
          (tl.map (fun w => encodeField w r.swap_endian)).flatten ++ rest := by
        apply drop_advance r.stream.data r.stream.pos 4
          (encodeField v r.swap_endian) _ (length_encodeField v r.swap_endian)
        rw [hd]
        simp [List.append_assoc]
      have ihx := ih (r.advance 4) (acc ++ [Block.mk v 0]) rest
        (fun w hw => hv w (List.mem_cons_of_mem v hw))
        (by simpa using hdrop)
      rw [List.length_cons, readStartsLoop, hfield]
      simp only [ihx, advance_advance]
      have h4 : 4 + 4 * tl.length = 4 * (tl.length + 1) := by omega
      rw [h4]
      simp

lemma readLengthsLoop_enc (bs : List Block) (lens : List Nat) (r : ValueReader)
    (rest : List Nat) (hlen : lens.length = bs.length) (hv : ∀ v ∈ lens, v < U32)
    (hd : r.stream.data.drop r.stream.pos =
      (lens.map (fun v => encodeField v r.swap_endian)).flatten ++ rest) :
    readLengthsLoop bs r =
      (.ok (List.zipWith (fun b l => { b with length := l }) bs lens),
        r.advance (4 * bs.length)) := by
  induction bs generalizing lens r rest with
  | nil =>
      cases lens with
      | nil => simp [readLengthsLoop]
      | cons l ls => simp at hlen
  | cons b tl ih =>
      cases lens with
      | nil => simp at hlen
      | cons l ls =>
          have hfield : r.field = (.ok l, r.advance 4) := by
            apply field_enc r l ((ls.map (fun w => encodeField w r.swap_endian)).flatten ++ rest)
              (hv l (List.mem_cons_self l ls))
            rw [hd]
            simp [List.append_assoc]
          have hdrop : r.stream.data.drop (r.stream.pos + 4) =
              (ls.map (fun w => encodeField w r.swap_endian)).flatten ++ rest := by
            apply drop_advance r.stream.data r.stream.pos 4
              (encodeField l r.swap_endian) _ (length_encodeField l r.swap_endian)
            rw [hd]
            simp [List.append_assoc]
          have ihx := ih ls (r.advance 4) rest
            (by simpa using hlen)
            (fun w hw => hv w (List.mem_cons_of_mem l hw))
            (by simpa using hdrop)
          rw [readLengthsLoop, hfield]
          simp only [ihx, advance_advance]
          have h4 : 4 + 4 * tl.length = 4 * (tl.length + 1) := by omega
          rw [h4]
          simp

lemma zipWith_upd_mk (starts lens : List Nat) :
    List.zipWith (fun b l => { b with length := l })
        (starts.map (fun v => Block.mk v 0)) lens
      = List.zipWith Block.mk starts lens := by
  induction starts generalizing lens with
  | nil => simp
  | cons s tl ih => cases lens <;> simp [ih]

lemma fillLoop_read_data : ∀ (fuel : Nat) (s : Stream) (acc : List Nat) (n : Nat),
    (fillLoop Stream.read fuel s acc n).2.data = s.data := by
  intro fuel
  induction fuel with
  | zero =>
      intro s acc n
      by_cases h : acc.length < n <;> simp [fillLoop, h]
  | succ k ih =>
      intro s acc n
      by_cases h : acc.length < n <;> simp [fillLoop, h, Stream.read, ih]

lemma fill_completely_snd (s : Stream) (n : Nat) :
    (fill_completely s n).2 = (fillLoop Stream.read n s [] n).2 := by
  rw [fill_completely]
  rcases h : fillLoop Stream.read n s [] n with ⟨res, s2⟩
  rcases res with (_ | e) | bytes <;> simp

lemma fill_completely_data (s : Stream) (n : Nat) :
    (fill_completely s n).2.data = s.data := by
  rw [fill_completely_snd]
  exact fillLoop_read_data n s [] n

lemma seek_ok_data (s : Stream) (p : SeekFrom) (v : Nat) (s2 : Stream)
    (h : s.seek p = .ok (v, s2)) : s2.data = s.data := by
  cases p with
  | Start n =>
      simp [Stream.seek] at h
      rw [← h.2]
  | Current d =>
      rw [Stream.seek] at h
      split at h
      · exact absurd h (by simp)
      · simp at h
        rw [← h.2]
  | FromEnd d =>
      rw [Stream.seek] at h
      split at h
      · exact absurd h (by simp)
      · simp at h
        rw [← h.2]

lemma field_fixedState (r : ValueReader) : (r.field).2.fixedState = r.fixedState := by
  rw [ValueReader.field]
  rcases h : fill_completely r.stream 4 with ⟨res, s⟩
  have hd : s.data = r.stream.data := by
    have := fill_completely_data r.stream 4
    rw [h] at this
    exact this
  rcases res with e | bytes <;> simp [ValueReader.fixedState, hd]

lemma byte_fixedState (r : ValueReader) : (r.byte).2.fixedState = r.fixedState := by
  rw [ValueReader.byte]
  rcases h : fill_completely r.stream 1 with ⟨res, s⟩
  have hd : s.data = r.stream.data := by
    have := fill_completely_data r.stream 1
    rw [h] at this
    exact this
  rcases res with e | bytes <;> simp [ValueReader.fixedState, hd]

lemma string_fixedState (r : ValueReader) (L : Nat) :
    (r.string L).2.fixedState = r.fixedState := by
  rw [ValueReader.string]
  rcases h : fill_completely r.stream L with ⟨res, s⟩
  have hd : s.data = r.stream.data := by
    have := fill_completely_data r.stream L
    rw [h] at this
    exact this
  rcases res with e | buf
  · simp [ValueReader.fixedState, hd]
  · by_cases hu : utf8_valid buf <;> simp [ValueReader.fixedState, hd, hu]

lemma seek_fixedState (r : ValueReader) (p : SeekFrom) :
    (r.seek p).2.fixedState = r.fixedState := by
  rw [ValueReader.seek]
  rcases h : r.stream.seek p with e | ⟨v, s⟩
  · simp
  · have hd : s.data = r.stream.data := seek_ok_data _ _ _ _ h
    simp [ValueReader.fixedState, hd]

lemma seek_start_fixedState (r : ValueReader) :
    r.seek_start.2.fixedState = r.fixedState := by
  rw [ValueReader.seek_start]
  rcases h : r.seek (.Start (2 * 4)) with ⟨res, r2⟩
  have hfix : r2.fixedState = r.fixedState := by
    have := seek_fixedState r (.Start (2 * 4))
    rw [h] at this
    exact this
  rcases res with e | v <;> simpa using hfix

lemma tell_fixedState (r : ValueReader) : r.tell.2.fixedState = r.fixedState := by
  rw [ValueReader.tell]
  rcases h : r.stream.seek (.Current 0) with e | ⟨v, s⟩
  · simp
  · have hd : s.data = r.stream.data := seek_ok_data _ _ _ _ h
    simp [ValueReader.fixedState, hd]

lemma readStartsLoop_fixedState : ∀ (n : Nat) (r : ValueReader) (acc : List Block),
    (readStartsLoop n r acc).2.fixedState = r.fixedState := by
  intro n
  induction n with
  | zero => intro r acc; simp [readStartsLoop]
  | succ k ih =>
      intro r acc
      rw [readStartsLoop]
      rcases h : r.field with ⟨res, r2⟩
      have hfix : r2.fixedState = r.fixedState := by
        have := field_fixedState r
        rw [h] at this
        exact this
      rcases res with e | v
      · simpa using hfix
      · rw [← hfix]
        exact ih r2 (acc ++ [⟨v, 0⟩])

lemma readLengthsLoop_fixedState : ∀ (bs : List Block) (r : ValueReader),
    (readLengthsLoop bs r).2.fixedState = r.fixedState := by
  intro bs
  induction bs with
  | nil => intro r; simp [readLengthsLoop]
  | cons b tl ih =>
      intro r
      rw [readLengthsLoop]
      rcases h : r.field with ⟨res, r2⟩
      have hfix : r2.fixedState = r.fixedState := by
        have := field_fixedState r
        rw [h] at this
        exact this
      rcases res with e | v
      · simpa using hfix
      · rcases h2 : readLengthsLoop tl r2 with ⟨res2, r3⟩
        have hfix2 : r3.fixedState = r2.fixedState := by
          have := ih r2
          rw [h2] at this
          exact this
        rcases res2 with e | bs2 <;> simp [h2, hfix2, hfix]

lemma blocks_fixedState (r : ValueReader) : r.blocks.2.fixedState = r.fixedState := by
  rw [ValueReader.blocks]
  rcases h : r.field with ⟨res, r1⟩
  have hfix : r1.fixedState = r.fixedState := by
    have := field_fixedState r
    rw [h] at this
    exact this
  rcases res with e | n
  · simpa using hfix
  · rcases h2 : readStartsLoop n r1 [] with ⟨res2, r2⟩
    have hfix2 : r2.fixedState = r1.fixedState := by
      have := readStartsLoop_fixedState n r1 []
      rw [h2] at this
      exact this
    rcases res2 with e | bs
    · simp [h2, hfix2, hfix]
    · have h3 := readLengthsLoop_fixedState bs r2
      simp only [h2]
      rw [h3, hfix2, hfix]

lemma skip_blocks_fixedState (r : ValueReader) :
    r.skip_blocks.2.fixedState = r.fixedState := by
  rw [ValueReader.skip_blocks]
  split
  case _ n r1 heq =>
    have hfix : r1.fixedState = r.fixedState := by
      have := field_fixedState r
      rw [heq] at this
      exact this
    split
    case _ v s heq2 =>
      have hd : s.data = r1.stream.data := seek_ok_data _ _ _ _ heq2
      rw [ValueReader.fixedState] at hfix ⊢
      simp only []
      rw [hd, hfix]
    case _ e heq2 => simpa using hfix
  case _ e r1 heq =>
    have hfix : r1.fixedState = r.fixedState := by
      have := field_fixedState r
      rw [heq] at this
      exact this
    simpa using hfix

lemma seek_current_zero (s : Stream) : s.seek (.Current 0) = .ok (s.pos, s) := by
  have hnn : ¬ ((s.pos : Int) + 0 < 0) := by omega
  simp [Stream.seek, hnn]

lemma seek_from_end_zero (s : Stream) :
    s.seek (.FromEnd 0) = .ok (s.data.length, { s with pos := s.data.length }) := by
  have hnn : ¬ ((s.data.length : Int) + 0 < 0) := by omega
  simp [Stream.seek, hnn]

lemma seek_start_abs (s : Stream) (n : Nat) :
    s.seek (.Start n) = .ok (n, { s with pos := n }) := rfl

lemma stream_len_eq (r : ValueReader) :
    r.stream_len = (.ok r.stream.data.length, r) := by
  rw [ValueReader.stream_len, seek_current_zero]
  simp only [seek_from_end_zero]
  by_cases h : r.stream.pos = r.stream.data.length
  · simp [h]
    rw [← h]
  · simp [h, seek_start_abs]

lemma stream_len_fixedState (r : ValueReader) :
    r.stream_len.2.fixedState = r.fixedState := by
  rw [stream_len_eq]

lemma fillLoop_progress {σ : Type} (read : σ → Nat → Except Error (List Nat × σ))
    (hread : ∀ st k chunk st2, 0 < k → read st k = .ok (chunk, st2) →
      1 ≤ chunk.length ∧ chunk.length ≤ k) :
    ∀ (fuel : Nat) (st : σ) (acc : List Nat) (n : Nat),
      acc.length ≤ n → n ≤ acc.length + fuel →
      (∃ bytes st2, fillLoop read fuel st acc n = (.ok bytes, st2) ∧ bytes.length = n) ∨
      (∃ e st2, fillLoop read fuel st acc n = (.error (some e), st2)) := by
  intro fuel
  induction fuel with
  | zero =>
      intro st acc n h1 h2
      have hnlt : ¬ acc.length < n := by omega
      left
      exact ⟨acc, st, fillLoop_done read 0 st acc n hnlt, by omega⟩
  | succ k ih =>
      intro st acc n h1 h2
      by_cases hlt : acc.length < n
      · rcases hr : read st (n - acc.length) with e | ⟨chunk, st2⟩
        · right
          refine ⟨e, st, ?_⟩
          rw [fillLoop, if_pos hlt, hr]
        · have hb := hread st (n - acc.length) chunk st2 (by omega) hr
          have hrec := ih st2 (acc ++ chunk) n
            (by simp only [List.length_append]; omega)
            (by simp only [List.length_append]; omega)
          rcases hrec with ⟨bytes, st3, heq, hlen⟩ | ⟨e, st3, heq⟩
          · left
            refine ⟨bytes, st3, ?_, hlen⟩
            rw [fillLoop, if_pos hlt, hr]
            exact heq
          · right
            refine ⟨e, st3, ?_⟩
            rw [fillLoop, if_pos hlt, hr]
            exact heq
      · left
        exact ⟨acc, st, fillLoop_done read (k + 1) st acc n hlt, by omega⟩

lemma fill_completely_zero (s : Stream) : fill_completely s 0 = (.ok [], s) := rfl

lemma seek_current_ofNat (s : Stream) (m : Nat) :
    s.seek (.Current (Int.ofNat m)) = .ok (s.pos + m, { s with pos := s.pos + m }) := by
  have hcast : Int.ofNat m = (m : Int) := rfl
  rw [Stream.seek, hcast]
  have h1 : ¬ ((s.pos : Int) + (m : Int) < 0) := by omega
  rw [if_neg h1]
  have h2 : ((s.pos : Int) + (m : Int)).toNat = s.pos + m := by omega
  rw [h2]

lemma new_first_field (first4 rest : List Nat) (h4 : first4.length = 4) :
    (ValueReader.mk ⟨first4 ++ rest, 0⟩ 0 false).field
      = (.ok (slice_to_field first4 false), ValueReader.mk ⟨first4 ++ rest, 4⟩ 0 false) := by
  have h := field_bytes (ValueReader.mk ⟨first4 ++ rest, 0⟩ 0 false) first4 rest h4 (by simp)
  simpa [ValueReader.advance] using h

lemma new_second_field (first4 rest : List Nat) (h4 : first4.length = 4)
    (w : Nat) (hw : w < U32) (swap : Bool) :
    (ValueReader.mk ⟨first4 ++ (encodeField w swap ++ rest), 4⟩ 0 swap).field
      = (.ok w, ValueReader.mk ⟨first4 ++ (encodeField w swap ++ rest), 8⟩ 0 swap) := by
  have hdrop : (first4 ++ (encodeField w swap ++ rest)).drop 4 = encodeField w swap ++ rest := by
    rw [← h4, List.drop_left]
  have h := field_enc (ValueReader.mk ⟨first4 ++ (encodeField w swap ++ rest), 4⟩ 0 swap)
    w rest hw (by simpa using hdrop)
  simpa [ValueReader.advance] using h

/-! ### Claims -/

/-- Claim C1: on a stream whose next bytes encode a count N, then N start
Fields, then N length Fields (two back-to-back arrays, not interleaved
pairs), `blocks` returns exactly the N Blocks pairing the i-th start with
the i-th length, in on-disk order, and advances the position by
4 + N*2*4 bytes; with N = 0 this is the empty list and exactly 4 bytes. -/
theorem C1_blocks_two_arrays (r : ValueReader) (starts lengths rest : List Nat)
    (hlen : lengths.length = starts.length)
    (hN : starts.length < U32)
    (hs : ∀ v ∈ starts, v < U32) (hl : ∀ v ∈ lengths, v < U32)
    (hd : r.stream.data.drop r.stream.pos =
      encodeField starts.length r.swap_endian
        ++ ((starts.map (fun v => encodeField v r.swap_endian)).flatten
          ++ ((lengths.map (fun v => encodeField v r.swap_endian)).flatten ++ rest))) :
    r.blocks = (.ok (List.zipWith Block.mk starts lengths),
      r.advance (4 + starts.length * 2 * 4)) := by
  have hfield : r.field = (.ok starts.length, r.advance 4) :=
    field_enc r starts.length _ hN hd
  have hd1 : r.stream.data.drop (r.stream.pos + 4) =
      (starts.map (fun v => encodeField v r.swap_endian)).flatten
        ++ ((lengths.map (fun v => encodeField v r.swap_endian)).flatten ++ rest) :=
    drop_advance _ _ _ _ _ (length_encodeField _ _) hd
  have hstarts := readStartsLoop_enc starts (r.advance 4) []
    ((lengths.map (fun v => encodeField v r.swap_endian)).flatten ++ rest) hs
    (by simpa using hd1)
  have hd2 : r.stream.data.drop (r.stream.pos + 4 + 4 * starts.length) =
      (lengths.map (fun v => encodeField v r.swap_endian)).flatten ++ rest :=
    drop_advance _ _ _ _ _ (length_flatten_enc starts r.swap_endian) hd1
  have hlens := readLengthsLoop_enc (starts.map (fun v => Block.mk v 0)) lengths
    ((r.advance 4).advance (4 * starts.length)) rest
    (by simpa using hlen) hl (by simpa using hd2)
  rw [ValueReader.blocks, hfield]
  simp only [hstarts, List.nil_append]
  rw [hlens, zipWith_upd_mk]
  simp only [List.length_map, advance_advance]
  have harith : 4 + 4 * starts.length + 4 * starts.length
      = 4 + starts.length * 2 * 4 := by omega
  rw [harith]

/-- Witness for C1 at the spec's example: count 2, starts [10, 50],
lengths [5, 8] in on-disk order decode to blocks (10,5), (50,8). -/
theorem C1_blocks_two_arrays_witness :
    ValueReader.blocks
        ⟨⟨[0, 0, 0, 2, 0, 0, 0, 10, 0, 0, 0, 50, 0, 0, 0, 5, 0, 0, 0, 8], 0⟩, 0, false⟩
      = (.ok [⟨10, 5⟩, ⟨50, 8⟩],
          ValueReader.advance
            ⟨⟨[0, 0, 0, 2, 0, 0, 0, 10, 0, 0, 0, 50, 0, 0, 0, 5, 0, 0, 0, 8], 0⟩, 0, false⟩
            (4 + 2 * 2 * 4)) :=
  C1_blocks_two_arrays
    ⟨⟨[0, 0, 0, 2, 0, 0, 0, 10, 0, 0, 0, 50, 0, 0, 0, 5, 0, 0, 0, 8], 0⟩, 0, false⟩
    [10, 50] [5, 8] [] (by decide) (by decide) (by decide) (by decide) (by decide)

/-- Claim C2: `slice_to_field` with `swap_endian = false` assembles the four
bytes most-significant-first, b0*2^24 + b1*2^16 + b2*2^8 + b3; in particular
bytes 0x1A,0x41,0x27,0x43 decode to 0x1A412743 without swap and the reversed
bytes 0x43,0x27,0x41,0x1A decode to 0x1A412743 with swap. -/
theorem C2_field_big_endian (b0 b1 b2 b3 : Nat)
    (h0 : b0 < 256) (h1 : b1 < 256) (h2 : b2 < 256) (h3 : b3 < 256) :
    slice_to_field [b0, b1, b2, b3] false
        = b0 * 2 ^ 24 + b1 * 2 ^ 16 + b2 * 2 ^ 8 + b3 ∧
    slice_to_field [0x1A, 0x41, 0x27, 0x43] false = 0x1A412743 ∧
    slice_to_field [0x43, 0x27, 0x41, 0x1A] true = 0x1A412743 := by
  refine ⟨?_, by decide, by decide⟩
  have h32 : U32 = 4294967296 := rfl
  simp [slice_to_field, h32]
  have e1 : b0 % 4294967296 = b0 := Nat.mod_eq_of_lt (by omega)
  rw [e1]
  have e2 : (b0 * 256 + b1) % 4294967296 = b0 * 256 + b1 := Nat.mod_eq_of_lt (by omega)
  rw [e2]
  have e3 : ((b0 * 256 + b1) * 256 + b2) % 4294967296 = (b0 * 256 + b1) * 256 + b2 :=
    Nat.mod_eq_of_lt (by omega)
  rw [e3]
  have e4 : (((b0 * 256 + b1) * 256 + b2) * 256 + b3) % 4294967296
      = ((b0 * 256 + b1) * 256 + b2) * 256 + b3 := Nat.mod_eq_of_lt (by omega)
  rw [e4]
  ring

/-- Witness for C2 at bytes 0x12, 0x34, 0x56, 0x78. -/
theorem C2_field_big_endian_witness :
    slice_to_field [0x12, 0x34, 0x56, 0x78] false
        = 0x12 * 2 ^ 24 + 0x34 * 2 ^ 16 + 0x56 * 2 ^ 8 + 0x78 ∧
    slice_to_field [0x1A, 0x41, 0x27, 0x43] false = 0x1A412743 ∧
    slice_to_field [0x43, 0x27, 0x41, 0x1A] true = 0x1A412743 :=
  C2_field_big_endian 0x12 0x34 0x56 0x78 (by decide) (by decide) (by decide) (by decide)

/-- Claim C3: decoding any 4-byte sequence with `swap_endian = true` gives
the same Field as decoding the reversed sequence with `swap_endian =
false`. -/
theorem C3_swap_decodes_reverse (s : List Nat) (h4 : s.length = 4)
    (hb : ∀ b ∈ s, b < 256) :
    slice_to_field s true = slice_to_field s.reverse false := rfl

/-- Witness for C3 at the sequence 1, 2, 3, 4. -/
theorem C3_swap_decodes_reverse_witness :
    slice_to_field [1, 2, 3, 4] true = slice_to_field [4, 3, 2, 1] false :=
  C3_swap_decodes_reverse [1, 2, 3, 4] (by decide) (by decide)

/-- Claim C4: construction fails with FileFormat exactly when the first
Field, decoded without swap, is neither the forward nor the reversed
signature — for any continuation, including none, so no bytes beyond the
first 4 are needed; it fails with UnsupportedVersion exactly when the
signature is recognized but the version Field is nonzero; and it succeeds
exactly when the signature is recognized and the version is 0, with the
matching `swap_endian` and position 8. -/
theorem C4_handshake (first4 : List Nat) (h4 : first4.length = 4) :
    (slice_to_field first4 false ≠ SIGNATURE → slice_to_field first4 false ≠ REV_SIGNATURE →
      ∀ rest, ValueReader.new ⟨first4 ++ rest, 0⟩ = .error (.FileFormat badSigMsg)) ∧
    (∀ w rest, w < U32 →
      (slice_to_field first4 false = SIGNATURE →
        (w ≠ 0 → ValueReader.new ⟨first4 ++ (encodeField w false ++ rest), 0⟩
            = .error (.UnsupportedVersion badVerMsg)) ∧
        (w = 0 → ValueReader.new ⟨first4 ++ (encodeField w false ++ rest), 0⟩
            = .ok ⟨⟨first4 ++ (encodeField w false ++ rest), 8⟩, 0, false⟩)) ∧
      (slice_to_field first4 false = REV_SIGNATURE →
        (w ≠ 0 → ValueReader.new ⟨first4 ++ (encodeField w true ++ rest), 0⟩
            = .error (.UnsupportedVersion badVerMsg)) ∧
        (w = 0 → ValueReader.new ⟨first4 ++ (encodeField w true ++ rest), 0⟩
            = .ok ⟨⟨first4 ++ (encodeField w true ++ rest), 8⟩, 0, true⟩))) := by
  have hne : SIGNATURE ≠ REV_SIGNATURE := by decide
  refine ⟨?_, ?_⟩
  · intro hns hnr rest
    rw [ValueReader.new]
    simp only [new_first_field first4 rest h4]
    simp [hns, hnr]
  · intro w rest hw
    refine ⟨?_, ?_⟩
    · intro hsig
      refine ⟨?_, ?_⟩
      · intro hw0
        rw [ValueReader.new]
        simp only [new_first_field first4 (encodeField w false ++ rest) h4, hsig,
          ite_true, new_second_field first4 rest h4 w hw false]
        simp [hw0]
      · intro hw0
        subst hw0
        rw [ValueReader.new]
        simp only [new_first_field first4 (encodeField 0 false ++ rest) h4, hsig,
          ite_true, new_second_field first4 rest h4 0 hw false]
    · intro hrev
      have hne2 : REV_SIGNATURE ≠ SIGNATURE := fun h => hne h.symm
      refine ⟨?_, ?_⟩
      · intro hw0
        rw [ValueReader.new]
        simp only [new_first_field first4 (encodeField w true ++ rest) h4, hrev, hne2,
          ite_false, ite_true, new_second_field first4 rest h4 w hw true]
        simp [hw0]
      · intro hw0
        subst hw0
        rw [ValueReader.new]
        simp only [new_first_field first4 (encodeField 0 true ++ rest) h4, hrev, hne2,
          ite_false, ite_true, new_second_field first4 rest h4 0 hw true]

/-- Witness for C4: a zero signature is rejected with FileFormat even with
no further bytes, and a reversed signature with version 0 succeeds with
`swap_endian = true` at position 8. -/
theorem C4_handshake_witness :
    ValueReader.new ⟨[0, 0, 0, 0], 0⟩ = .error (.FileFormat badSigMsg) ∧
    ValueReader.new ⟨[0x43, 0x27, 0x41, 0x1A] ++ (encodeField 0 true ++ []), 0⟩
      = .ok ⟨⟨[0x43, 0x27, 0x41, 0x1A] ++ (encodeField 0 true ++ []), 8⟩, 0, true⟩ :=
  ⟨(C4_handshake [0, 0, 0, 0] (by decide)).1 (by decide) (by decide) [],
   (((C4_handshake [0x43, 0x27, 0x41, 0x1A] (by decide)).2 0 [] (by decide)).2
     (by decide)).2 rfl⟩

/-- Claim C5: for any count N encoded at the current position,
`skip_blocks` advances the stream position by exactly 4 + N*2*4 bytes,
decoding no Block values and placing no requirement on the bytes of the
start/length arrays (which may even be absent). -/
theorem C5_skip_blocks_advance (r : ValueReader) (N : Nat) (rest : List Nat)
    (hN : N < U32)
    (hd : r.stream.data.drop r.stream.pos = encodeField N r.swap_endian ++ rest) :
    r.skip_blocks = (.ok (), r.advance (4 + N * 2 * 4)) := by
  have hfield := field_enc r N rest hN hd
  rw [ValueReader.skip_blocks, hfield]
  simp only [seek_current_ofNat]
  have harith : r.stream.pos + 4 + N * 2 * 4 = r.stream.pos + (4 + N * 2 * 4) := by omega
  simp [ValueReader.advance, harith]

/-- Witness for C5 at the spec's example: count 3 with no further bytes
advances the position by 28. -/
theorem C5_skip_blocks_advance_witness :
    ValueReader.skip_blocks ⟨⟨[0, 0, 0, 3], 0⟩, 0, false⟩
      = (.ok (), ValueReader.advance ⟨⟨[0, 0, 0, 3], 0⟩, 0, false⟩ (4 + 3 * 2 * 4)) :=
  C5_skip_blocks_advance ⟨⟨[0, 0, 0, 3], 0⟩, 0, false⟩ 3 [] (by decide) (by decide)

/-- Claim C6: `string L` reads exactly the next L bytes and returns them as
text when they are well-formed UTF-8, fails with TextDecode exactly when
they are not, and for L = 0 returns the empty string without issuing any
read on the underlying stream (the accumulation loop returns before its
first read, for any read function and any state). -/
theorem C6_string_utf8 (r : ValueReader) (L : Nat) (buf rest : List Nat)
    (hbuf : buf.length = L)
    (hd : r.stream.data.drop r.stream.pos = buf ++ rest) :
    (utf8_valid buf = true → r.string L = (.ok buf, r.advance L)) ∧
    (utf8_valid buf = false → (r.string L).1 = .error .TextDecode) ∧
    (∀ (r2 : ValueReader), r2.string 0 = (.ok [], r2)) ∧
    (∀ (σ : Type) (read : σ → Nat → Except Error (List Nat × σ)) (st : σ),
      fillLoop read 0 st [] 0 = (.ok [], st)) := by
  have hlen := congrArg List.length hd
  simp only [List.length_drop, List.length_append, hbuf] at hlen
  have htake : (r.stream.data.drop r.stream.pos).take L = buf := by
    rw [hd, ← hbuf, List.take_left]
  have hfill : fill_completely r.stream L = (.ok buf, ⟨r.stream.data, r.stream.pos + L⟩) := by
    cases L with
    | zero =>
        have hbuf0 : buf = [] := List.eq_nil_of_length_eq_zero hbuf
        rw [fill_completely_zero]
        simp [hbuf0]
    | succ k =>
        have hle : r.stream.pos + (k + 1) ≤ r.stream.data.length := by omega
        rw [fill_completely_spec _ _ hle, htake]
  refine ⟨?_, ?_, ?_, ?_⟩
  · intro hu
    rw [ValueReader.string, hfill]
    simp [hu, ValueReader.advance]
  · intro hu
    rw [ValueReader.string, hfill]
    simp [hu]
  · intro r2
    rfl
  · intro σ read st
    rfl

/-- Witness for C6 at the spec's example: the bytes of "hello". -/
theorem C6_string_utf8_witness :
    ValueReader.string ⟨⟨[104, 101, 108, 108, 111], 0⟩, 0, false⟩ 5
      = (.ok [104, 101, 108, 108, 111],
          ValueReader.advance ⟨⟨[104, 101, 108, 108, 111], 0⟩, 0, false⟩ 5) :=
  (C6_string_utf8 ⟨⟨[104, 101, 108, 108, 111], 0⟩, 0, false⟩ 5
    [104, 101, 108, 108, 111] [] (by decide) (by decide)).1 (by decide)

/-- Claim C7: `stream_len` returns the total byte length of the underlying
stream and leaves the decoder — in particular the position observed by a
subsequent `tell` — exactly as it was, for every prior position including
end-of-stream. -/
theorem C7_stream_len_preserves_position (r : ValueReader) :
    (r.stream_len).1 = .ok r.stream.data.length ∧
    ((r.stream_len).2.tell).1 = (r.tell).1 ∧
    (r.stream_len).2 = r := by
  rw [stream_len_eq]
  exact ⟨rfl, rfl, rfl⟩

/-- Claim C8: when every underlying read returns at least one byte (and at
most the requested remainder) or an error, the `fill_completely`
accumulation loop terminates within its fuel, delivering exactly the
requested number of bytes on success, and on failure it propagates the
underlying read error (it never produces the synthesized fuel-exhaustion
marker). -/
theorem C8_fill_loop_total {σ : Type}
    (read : σ → Nat → Except Error (List Nat × σ))
    (hread : ∀ st k chunk st2, 0 < k → read st k = .ok (chunk, st2) →
      1 ≤ chunk.length ∧ chunk.length ≤ k)
    (st : σ) (n : Nat) :
    (∃ bytes st2, fillLoop read n st [] n = (.ok bytes, st2) ∧ bytes.length = n) ∨
    (∃ e st2, fillLoop read n st [] n = (.error (some e), st2)) :=
  fillLoop_progress read hread n st [] n (by simp) (by simp)

/-- A degenerate source that always delivers exactly one byte, used to
witness the exact-size-read loop theorem. -/
def oneByteSource : Unit → Nat → Except Error (List Nat × Unit) :=
  fun _ _ => .ok ([0], ())

/-- Witness for C8: a source delivering one byte per call satisfies the
progress precondition, so filling 3 bytes terminates. -/
theorem C8_fill_loop_total_witness :
    (∃ bytes st2, fillLoop oneByteSource 3 () [] 3 = (.ok bytes, st2) ∧ bytes.length = 3) ∨
    (∃ e st2, fillLoop oneByteSource 3 () [] 3 = (.error (some e), st2)) :=
  C8_fill_loop_total oneByteSource
    (fun st k chunk st2 hk hr => by
      simp only [oneByteSource, Except.ok.injEq, Prod.mk.injEq] at hr
      rw [← hr.1]
      exact ⟨by simp, by simp; omega⟩) () 3

/-- Claim C9: every operation of the decoder leaves the `swap_endian` flag,
the stored version and the stream contents unchanged — the only mutable
state is the stream position. -/
theorem C9_fixed_flags (r : ValueReader) (p : SeekFrom) (L : Nat) :
    (r.seek p).2.fixedState = r.fixedState ∧
    r.seek_start.2.fixedState = r.fixedState ∧
    r.tell.2.fixedState = r.fixedState ∧
    r.stream_len.2.fixedState = r.fixedState ∧
    r.byte.2.fixedState = r.fixedState ∧
    r.field.2.fixedState = r.fixedState ∧
    (r.string L).2.fixedState = r.fixedState ∧
    r.blocks.2.fixedState = r.fixedState ∧
    r.skip_blocks.2.fixedState = r.fixedState :=
  ⟨seek_fixedState r p, seek_start_fixedState r, tell_fixedState r,
   stream_len_fixedState r, byte_fixedState r, field_fixedState r,
   string_fixedState r L, blocks_fixedState r, skip_blocks_fixedState r⟩

/-- Claim C10: when `string L` fails with TextDecode on invalid UTF-8, the
position has nevertheless advanced by exactly L bytes, because validation
runs only after the full exact-size read. -/
theorem C10_string_error_advances (r : ValueReader) (L : Nat) (buf rest : List Nat)
    (hbuf : buf.length = L)
    (hd : r.stream.data.drop r.stream.pos = buf ++ rest)
    (hbad : utf8_valid buf = false) :
    (r.string L).1 = .error .TextDecode ∧
    (r.string L).2.stream.pos = r.stream.pos + L := by
  have hlen := congrArg List.length hd
  simp only [List.length_drop, List.length_append, hbuf] at hlen
  have htake : (r.stream.data.drop r.stream.pos).take L = buf := by
    rw [hd, ← hbuf, List.take_left]
  have hfill : fill_completely r.stream L = (.ok buf, ⟨r.stream.data, r.stream.pos + L⟩) := by
    cases L with
    | zero =>
        have hbuf0 : buf = [] := List.eq_nil_of_length_eq_zero hbuf
        rw [fill_completely_zero]
        simp [hbuf0]
    | succ k =>
        have hle : r.stream.pos + (k + 1) ≤ r.stream.data.length := by omega
        rw [fill_completely_spec _ _ hle, htake]
  rw [ValueReader.string, hfill]
  simp [hbad]

/-- Witness for C10: five 0xFF bytes are invalid UTF-8; the read still
advances the position by 5. -/
theorem C10_string_error_advances_witness :
    (ValueReader.string ⟨⟨[255, 255, 255, 255, 255], 0⟩, 0, false⟩ 5).1
        = .error .TextDecode ∧
    (ValueReader.string ⟨⟨[255, 255, 255, 255, 255], 0⟩, 0, false⟩ 5).2.stream.pos
        = 0 + 5 :=
  C10_string_error_advances ⟨⟨[255, 255, 255, 255, 255], 0⟩, 0, false⟩ 5
    [255, 255, 255, 255, 255] [] (by decide) (by decide) (by decide)

end TwoBit
